import Mathlib

/-!
Verification of the integrity core of TheQube.L0Q3R:
canonical JSON hashing (`src/docling-cluster/lib/canonical.py`),
the hash-chain ledger (`src/docling-cluster/lib/ledger.py`), and
the Merkle tree / Merkle forest (`src/validation/anchors/merkle_forest.py`).

The Python code is shallowly embedded: dictionaries become association
lists (preserving insertion order, like Python dicts), `time.time()` is
passed explicitly as an integer timestamp, exceptions become `Option`
results, and `hashlib.sha256` is implemented bit-for-bit (FIPS 180-4)
over byte lists with explicit `% 2^32` arithmetic.
-/

namespace TheQube

/-! ## SHA-256 (FIPS 180-4), as used by `hashlib.sha256(...).hexdigest()` -/

/-- Truncate to a 32-bit word. -/
def w32 (n : Nat) : Nat := n % 4294967296

/-- Right rotation of a 32-bit word. -/
def rotr (x n : Nat) : Nat := w32 ((x >>> n) ||| (x <<< (32 - n)))

/-- Bitwise complement of a 32-bit word. -/
def compl32 (x : Nat) : Nat := x ^^^ 4294967295

/-- SHA-256 round constants. -/
def shaK : List Nat :=
  [1116352408, 1899447441, 3049323471, 3921009573, 961987163,
   1508970993, 2453635748, 2870763221, 3624381080, 310598401,
   607225278, 1426881987, 1925078388, 2162078206, 2614888103,
   3248222580, 3835390401, 4022224774, 264347078, 604807628,
   770255983, 1249150122, 1555081692, 1996064986, 2554220882,
   2821834349, 2952996808, 3210313671, 3336571891, 3584528711,
   113926993, 338241895, 666307205, 773529912, 1294757372,
   1396182291, 1695183700, 1986661051, 2177026350, 2456956037,
   2730485921, 2820302411, 3259730800, 3345764771, 3516065817,
   3600352804, 4094571909, 275423344, 430227734, 506948616,
   659060556, 883997877, 958139571, 1322822218, 1537002063,
   1747873779, 1955562222, 2024104815, 2227730452, 2361852424,
   2428436474, 2756734187, 3204031479, 3329325298]

/-- SHA-256 initial hash state. -/
def shaH0 : List Nat :=
  [1779033703, 3144134277, 1013904242, 2773480762,
   1359893119, 2600822924, 528734635, 1541459225]

/-- One SHA-256 compression round on the 8-word state. -/
def shaRound (st : List Nat) (ki wi : Nat) : List Nat :=
  let a := st.getD 0 0
  let b := st.getD 1 0
  let c := st.getD 2 0
  let d := st.getD 3 0
  let e := st.getD 4 0
  let f := st.getD 5 0
  let g := st.getD 6 0
  let h := st.getD 7 0
  let s1 := rotr e 6 ^^^ rotr e 11 ^^^ rotr e 25
  let ch := (e &&& f) ^^^ (compl32 e &&& g)
  let temp1 := w32 (h + s1 + ch + ki + wi)
  let s0 := rotr a 2 ^^^ rotr a 13 ^^^ rotr a 22
  let maj := (a &&& b) ^^^ (a &&& c) ^^^ (b &&& c)
  let temp2 := w32 (s0 + maj)
  [w32 (temp1 + temp2), a, b, c, w32 (d + temp1), e, f, g]

/-- Big-endian 32-bit words from a 64-byte block. -/
def blockWords (block : List Nat) : List Nat :=
  (List.range 16).map fun i =>
    (block.getD (4 * i) 0) * 16777216 + (block.getD (4 * i + 1) 0) * 65536 +
      (block.getD (4 * i + 2) 0) * 256 + block.getD (4 * i + 3) 0

/-- Extend the 16 message words to 64 (message schedule). -/
def shaSchedule (w16 : List Nat) : List Nat :=
  (List.range 48).foldl
    (fun w _ =>
      let n := w.length
      let x15 := w.getD (n - 15) 0
      let x2 := w.getD (n - 2) 0
      let s0 := rotr x15 7 ^^^ rotr x15 18 ^^^ (x15 >>> 3)
      let s1 := rotr x2 17 ^^^ rotr x2 19 ^^^ (x2 >>> 10)
      w ++ [w32 (w.getD (n - 16) 0 + s0 + w.getD (n - 7) 0 + s1)])
    w16

/-- SHA-256 compression of one 64-byte block into the running state. -/
def shaCompress (hs : List Nat) (block : List Nat) : List Nat :=
  let w := shaSchedule (blockWords block)
  let fin := (List.range 64).foldl
    (fun st i => shaRound st (shaK.getD i 0) (w.getD i 0)) hs
  List.zipWith (fun x y => w32 (x + y)) hs fin

/-- SHA-256 padding: append 0x80, zeros, and the 64-bit bit length. -/
def shaPad (msg : List Nat) : List Nat :=
  let len := msg.length
  let k := (119 - len % 64) % 64
  msg ++ [128] ++ List.replicate k 0 ++
    (List.range 8).map (fun i => (len * 8) >>> (56 - 8 * i) % 256)

/-- Split a padded message (whose length is a multiple of 64) into its
64-byte blocks. -/
def shaBlocks (bs : List Nat) : List (List Nat) :=
  (List.range (bs.length / 64)).map fun i => ((bs.drop (64 * i)).take 64)

/-- SHA-256 digest of a byte list, as 32 bytes. -/
def sha256Digest (msg : List Nat) : List Nat :=
  let hs := (shaBlocks (shaPad msg)).foldl shaCompress shaH0
  (hs.map fun x => [x >>> 24 % 256, x >>> 16 % 256, x >>> 8 % 256, x % 256]).flatten

/-- Lowercase hex digit. -/
def hexDigit (n : Nat) : Char :=
  if n < 10 then Char.ofNat (48 + n) else Char.ofNat (87 + n)

/-- Lowercase hex encoding of a byte list. -/
def bytesToHex (bs : List Nat) : String :=
  String.mk ((bs.map fun b => [hexDigit (b / 16 % 16), hexDigit (b % 16)]).flatten)

/-- `hashlib.sha256(data).hexdigest()` from `merkle_forest.py` (`sha256_hex`)
and the digest step of `canonical.py` — over explicit bytes. -/
def sha256_hex (data : List Nat) : String := bytesToHex (sha256Digest data)

/-- UTF-8 encoding of one character (`str.encode("utf-8")`). -/
def utf8Char (c : Char) : List Nat :=
  let n := c.toNat
  if n < 128 then [n]
  else if n < 2048 then [192 + n / 64, 128 + n % 64]
  else if n < 65536 then [224 + n / 4096, 128 + n / 64 % 64, 128 + n % 64]
  else [240 + n / 262144, 128 + n / 4096 % 64, 128 + n / 64 % 64, 128 + n % 64]

/-- UTF-8 encoding of a string (`str.encode("utf-8")`). -/
def strBytes (s : String) : List Nat := (s.data.map utf8Char).flatten

/-! ## Python JSON values and `json.dumps`

`PyVal` embeds the JSON-representable Python values (plus `obj`, an
arbitrary non-serializable object, on which `json.dumps` raises
`TypeError`).  Timestamps are embedded as integers.  Dicts are
association lists with string keys, in insertion order. -/

inductive PyVal : Type where
  | null : PyVal
  | bool : Bool → PyVal
  | int : Int → PyVal
  | str : String → PyVal
  | list : List PyVal → PyVal
  | dict : List (String × PyVal) → PyVal
  | obj : Nat → PyVal

/-- Python truthiness (`bool(v)`), as used by `x or y`. -/
def py_truthy : PyVal → Bool
  | .null => false
  | .bool b => b
  | .int n => n != 0
  | .str s => s != ""
  | .list xs => !xs.isEmpty
  | .dict kvs => !kvs.isEmpty
  | .obj _ => true

/-- Stable insertion into a sorted list w.r.t. a strict order (helper for
`sortedBy`). -/
def insertSorted (lt : α → α → Bool) (x : α) : List α → List α
  | [] => [x]
  | y :: ys => if lt y x then y :: insertSorted lt x ys else x :: y :: ys

/-- Stable ascending sort, as Python's `sorted(..., key=...)`. -/
def sortedBy (lt : α → α → Bool) : List α → List α
  | [] => []
  | x :: xs => insertSorted lt x (sortedBy lt xs)

/-- `\uXXXX` escape with four lowercase hex digits. -/
def uEsc (n : Nat) : List Char :=
  ['\\', 'u', hexDigit (n / 4096 % 16), hexDigit (n / 256 % 16),
   hexDigit (n / 16 % 16), hexDigit (n % 16)]

/-- Escaping of one character by `json.dumps` with `ensure_ascii=True`
(CPython `py_encode_basestring_ascii`): `"` and `\` and everything
outside `0x20..0x7e` is escaped; non-BMP characters use surrogate
pairs. -/
def escCharASCII (c : Char) : List Char :=
  let n := c.toNat
  if n = 34 then ['\\', '"']
  else if n = 92 then ['\\', '\\']
  else if n = 8 then ['\\', 'b']
  else if n = 9 then ['\\', 't']
  else if n = 10 then ['\\', 'n']
  else if n = 12 then ['\\', 'f']
  else if n = 13 then ['\\', 'r']
  else if n < 32 then uEsc n
  else if n ≤ 126 then [c]
  else if n < 65536 then uEsc n
  else uEsc (55296 + (n - 65536) / 1024) ++ uEsc (56320 + (n - 65536) % 1024)

/-- Escaping of one character by `json.dumps` with `ensure_ascii=False`
(CPython `py_encode_basestring`): only `"`, `\` and control characters
below `0x20` are escaped; everything else passes through. -/
def escCharStd (c : Char) : List Char :=
  let n := c.toNat
  if n = 34 then ['\\', '"']
  else if n = 92 then ['\\', '\\']
  else if n = 8 then ['\\', 'b']
  else if n = 9 then ['\\', 't']
  else if n = 10 then ['\\', 'n']
  else if n = 12 then ['\\', 'f']
  else if n = 13 then ['\\', 'r']
  else if n < 32 then uEsc n
  else [c]

/-- A JSON string literal, with the escaping regime selected by
`ensure_ascii`. -/
def encodeJsonStr (ensure_ascii : Bool) (s : String) : String :=
  String.mk ('"' :: (s.data.map
    (if ensure_ascii then escCharASCII else escCharStd)).flatten ++ ['"'])

/-- Decimal rendering of a Python int. -/
def intRepr : Int → String
  | .ofNat n => Nat.repr n
  | .negSucc m => "-" ++ Nat.repr (m + 1)

/-- Key order used by `json.dumps(..., sort_keys=True)` (Python string
`<`, i.e. code-point lexicographic). -/
def keyLt (a b : String × String) : Bool := decide (a.1 < b.1)

mutual
/-- `json.dumps(v, sort_keys=True, separators=(",", ":"))`, with the
`ensure_ascii` flag explicit; `none` models the `TypeError` raised on a
non-serializable value.  Dict entries are rendered and then emitted in
ascending key order (CPython sorts the items first; as the rendering of
an entry depends only on the entry, the result is the same). -/
def dumps (ensure_ascii : Bool) : PyVal → Option String
  | .null => some "null"
  | .bool true => some "true"
  | .bool false => some "false"
  | .int n => some (intRepr n)
  | .str s => some (encodeJsonStr ensure_ascii s)
  | .list xs => (dumpsList ensure_ascii xs).map
      (fun ss => "[" ++ String.intercalate "," ss ++ "]")
  | .dict kvs => (dumpsPairs ensure_ascii kvs).map
      (fun ps => "\x7b" ++
        String.intercalate "," ((sortedBy keyLt ps).map
          (fun p => encodeJsonStr ensure_ascii p.1 ++ ":" ++ p.2)) ++ "\x7d")
  | .obj _ => none

/-- Serialize the elements of a JSON array. -/
def dumpsList (ensure_ascii : Bool) : List PyVal → Option (List String)
  | [] => some []
  | x :: xs => do
      let s ← dumps ensure_ascii x
      let ss ← dumpsList ensure_ascii xs
      pure (s :: ss)

/-- Serialize dict entries to (raw key, rendered value) pairs. -/
def dumpsPairs (ensure_ascii : Bool) :
    List (String × PyVal) → Option (List (String × String))
  | [] => some []
  | (k, v) :: kvs => do
      let s ← dumps ensure_ascii v
      let ps ← dumpsPairs ensure_ascii kvs
      pure ((k, s) :: ps)
end

/-! ## `canonical.py` -/

/-- `canonicalize` from `canonical.py`:
`json.dumps(data, sort_keys=True, separators=(",", ":"), ensure_ascii=False).encode("utf-8")`. -/
def canonicalize (data : PyVal) : Option (List Nat) :=
  (dumps false data).map strBytes

/-- `compute_hash` from `canonical.py`: SHA-256 hex digest of the
canonicalized JSON. -/
def compute_hash (data : PyVal) : Option String :=
  (canonicalize data).map sha256_hex

/-! ## `merkle_forest.py`: hashing surfaces -/

/-- A payload: `Dict[str, Any]` in insertion order. -/
def Payload : Type := List (String × PyVal)

/-- `sha256_hex` from `merkle_forest.py`, applied to an encoded string. -/
def sha256_hex_str (s : String) : String := sha256_hex (strBytes s)

/-- `canonicalize_jcs` from `merkle_forest.py`:
`json.dumps(payload, sort_keys=True, separators=(",", ":"))` — note
`ensure_ascii` is left at its default `True` here, unlike
`canonical.canonicalize`. -/
def canonicalize_jcs (payload : Payload) : Option String :=
  dumps true (.dict payload)

/-- `HashSurfaces.from_payload`: drops the `digest` key, canonicalizes,
and takes `payload.get("digest") or sha256_hex(...)` as the leaf hash
(`None` when absent; Python `or` falls through on any falsy value).
Returns `(leaf_hash, canonical_payload)`; `none` models the `TypeError`
from `json.dumps` on a non-serializable payload. -/
def HashSurfaces.from_payload (payload : Payload) :
    Option (PyVal × String) := do
  let canonical_source := payload.filter (fun kv => kv.1 != "digest")
  let canonical_payload ← canonicalize_jcs canonical_source
  let dv := (payload.lookup "digest").getD PyVal.null
  let leaf_hash :=
    if py_truthy dv then dv else PyVal.str (sha256_hex_str canonical_payload)
  pure (leaf_hash, canonical_payload)

/-- `canonical_leaf_hash` from `merkle_forest.py`. -/
def canonical_leaf_hash (payload : Payload) : Option PyVal :=
  (HashSurfaces.from_payload payload).map (·.1)

/-! ## `merkle_forest.py`: Merkle tree -/

/-- `MerkleNode`: hash, optional children, leaf marker, optional leaf id. -/
inductive MerkleNode : Type where
  | mk (hash : String) (left : Option MerkleNode) (right : Option MerkleNode)
      (is_leaf : Bool) (leaf_id : Option String)

def MerkleNode.hash : MerkleNode → String
  | .mk h _ _ _ _ => h

def MerkleNode.left : MerkleNode → Option MerkleNode
  | .mk _ l _ _ _ => l

def MerkleNode.right : MerkleNode → Option MerkleNode
  | .mk _ _ r _ _ => r

def MerkleNode.is_leaf : MerkleNode → Bool
  | .mk _ _ _ b _ => b

def MerkleNode.leaf_id : MerkleNode → Option String
  | .mk _ _ _ _ i => i

/-- The parent node built in `_build_tree`'s inner loop:
`sha256_hex((left.hash + right.hash).encode("utf-8"))`. -/
def mkParent (l r : MerkleNode) : MerkleNode :=
  .mk (sha256_hex_str (l.hash ++ r.hash)) (some l) (some r) false none

/-- One pass of `_build_tree`'s inner `for` loop: pair adjacent nodes,
the last node of an odd level being paired with itself. -/
def pairUp : List MerkleNode → List MerkleNode
  | [] => []
  | [x] => [mkParent x x]
  | x :: y :: rest => mkParent x y :: pairUp rest

theorem pairUp_length (l : List MerkleNode) :
    (pairUp l).length = (l.length + 1) / 2 := by
  induction l using pairUp.induct <;> simp [pairUp] <;> omega

/-- `_build_tree`: `None` on an empty leaf list, otherwise the repeated
`pairUp` passes down to a single root. -/
def buildRoot (level : List MerkleNode) : Option MerkleNode :=
  match level with
  | [] => none
  | [x] => some x
  | x :: y :: rest => buildRoot (pairUp (x :: y :: rest))
termination_by level.length
decreasing_by simp [pairUp_length]; omega

/-- `MerkleTree` (the forest's timestamps are explicit integers). -/
structure MerkleTree : Type where
  tree_id : String
  leaves : List MerkleNode
  root : Option MerkleNode
  created_at_utc : Int
  last_updated_utc : Int

/-- A fresh `MerkleTree(tree_id=t)` created at time `now`. -/
def MerkleTree.fresh (tid : String) (now : Int) : MerkleTree :=
  ⟨tid, [], none, now, now⟩

/-- `MerkleTree.add_leaf`: hash the payload, append the leaf node, stamp
`last_updated_utc`, rebuild the root.  `none` models the `TypeError`
raised inside `canonical_leaf_hash` (tree unchanged), and also covers a
non-string declared digest, which the dynamically-typed source would
accept here only to fail later when concatenating hashes. -/
def MerkleTree.add_leaf (t : MerkleTree) (leaf_id : String)
    (payload : Payload) (now : Int) : Option MerkleTree :=
  match canonical_leaf_hash payload with
  | some (.str leaf_hash) =>
      let node : MerkleNode := .mk leaf_hash none none true (some leaf_id)
      let leaves := t.leaves ++ [node]
      some { t with leaves := leaves, last_updated_utc := now,
                    root := buildRoot leaves }
  | _ => none

/-- `MerkleTree.get_root_hash`. -/
def MerkleTree.get_root_hash (t : MerkleTree) : Option String :=
  t.root.map MerkleNode.hash

/-- The recursive `dfs` of `MerkleTree.inclusion_proof`, returning the
accumulated `(sibling_hash, position)` path on success (siblings are
appended on the way back up, so the deepest sibling comes first). -/
def dfsProof (node : MerkleNode) (target : String) :
    Option (List (String × String)) :=
  if node.is_leaf && node.leaf_id == some target then some []
  else
    match node with
    | .mk _ (some l) (some r) _ _ =>
        match dfsProof l target with
        | some acc => some (acc ++ [(r.hash, "R")])
        | none =>
            match dfsProof r target with
            | some acc => some (acc ++ [(l.hash, "L")])
            | none => none
    | _ => none

/-- `MerkleTree.inclusion_proof`. -/
def MerkleTree.inclusion_proof (t : MerkleTree) (leaf_id : String) :
    Option (List (String × String)) :=
  match t.root with
  | none => none
  | some r => dfsProof r leaf_id

/-- One fold step of `verify_inclusion`: any position other than `"R"`
takes the left branch. -/
def verifyStep (h : String) (sp : String × String) : String :=
  if sp.2 == "R" then sha256_hex_str (h ++ sp.1)
  else sha256_hex_str (sp.1 ++ h)

/-- `MerkleTree.verify_inclusion` (a static method in the source). -/
def verify_inclusion (leaf_hash root_hash : String)
    (proof : List (String × String)) : Bool :=
  proof.foldl verifyStep leaf_hash == root_hash

/-! ## `ledger.py` -/

/-- The 64-zero genesis value `"0" * 64`. -/
def zeros64 : String := String.mk (List.replicate 64 '0')

/-- A ledger entry `{"op", "ts", "prev", "data"}`. -/
structure Entry : Type where
  op : String
  ts : Int
  prev : String
  data : PyVal

/-- The entry as the Python dict passed to `compute_hash`. -/
def Entry.toVal (e : Entry) : PyVal :=
  .dict [("op", .str e.op), ("ts", .int e.ts), ("prev", .str e.prev),
         ("data", e.data)]

/-- A stored chain element `{"hash": entry_hash, "entry": entry}`. -/
structure Record : Type where
  hash : String
  entry : Entry

/-- The in-memory hash-chain ledger. -/
structure Ledger : Type where
  chain : List Record
  last_hash : String

/-- `Ledger.__init__`. -/
def Ledger.fresh : Ledger := ⟨[], zeros64⟩

/-- `Ledger.record_entry` with the timestamp explicit.  The entry is
built and hashed before any mutation; if `compute_hash` raises
(non-serializable `data`), the ledger is returned unchanged with no
record. -/
def Ledger.record_entry (l : Ledger) (operation : String) (ts : Int)
    (data : PyVal) : Option Record × Ledger :=
  let entry : Entry := ⟨operation, ts, l.last_hash, data⟩
  match compute_hash entry.toVal with
  | none => (none, l)
  | some entry_hash =>
      (some ⟨entry_hash, entry⟩,
       ⟨l.chain ++ [⟨entry_hash, entry⟩], entry_hash⟩)

/-- Run a sequence of `record_entry` calls (`(operation, ts, data)`);
a raising call leaves the ledger unchanged, as in the source. -/
def Ledger.run (l : Ledger) : List (String × Int × PyVal) → Ledger
  | [] => l
  | (op, ts, d) :: rest => Ledger.run (l.record_entry op ts d).2 rest

/-! ## `merkle_forest.py`: Merkle forest -/

/-- `ForestConfig` with its source defaults. -/
structure ForestConfig : Type where
  stale_seconds : Int := 86400
  max_trees : Nat := 128

/-- `MerkleForest`: config plus the branch map in insertion order. -/
structure MerkleForest : Type where
  config : ForestConfig
  trees : List (String × MerkleTree)

/-- An empty forest with the given config. -/
def MerkleForest.empty (cfg : ForestConfig) : MerkleForest := ⟨cfg, []⟩

/-- In-place update of an existing key, as Python `d[k] = v` on a
present key (keeps the key's position). -/
def dictSet (m : List (String × MerkleTree)) (k : String) (v : MerkleTree) :
    List (String × MerkleTree) :=
  m.map fun kv => if kv.1 = k then (k, v) else kv

/-- `MerkleForest._maybe_prune` at time `now`: drop stale trees, then, if
still over `max_trees`, delete the oldest-by-`last_updated_utc` trees
(stable ascending sort, as Python `sorted`). -/
def MerkleForest.maybe_prune (f : MerkleForest) (now : Int) : MerkleForest :=
  let t1 := f.trees.filter
    (fun kv => !(decide (now - kv.2.last_updated_utc > f.config.stale_seconds)))
  let t2 :=
    if t1.length > f.config.max_trees then
      let ordered := sortedBy
        (fun a b => decide (a.2.last_updated_utc < b.2.last_updated_utc)) t1
      let to_drop := t1.length - f.config.max_trees
      let dropKeys := (ordered.take to_drop).map (·.1)
      t1.filter (fun kv => !(dropKeys.contains kv.1))
    else t1
  ⟨f.config, t2⟩

/-- `MerkleForest.add_fossil_to_thread` at time `now`.  A new branch
first prunes, then inserts an empty tree; then `add_leaf` runs on the
branch's tree.  The first component is the returned tree (`none` when
`add_leaf` raises — in which case a freshly created empty tree stays in
the forest, exactly as in the source). -/
def MerkleForest.add_fossil_to_thread (f : MerkleForest)
    (thread_id leaf_id : String) (payload : Payload) (now : Int) :
    Option MerkleTree × MerkleForest :=
  let f1 :=
    if (f.trees.lookup thread_id).isSome then f
    else
      let fp := f.maybe_prune now
      ⟨fp.config, fp.trees ++ [(thread_id, MerkleTree.fresh thread_id now)]⟩
  match f1.trees.lookup thread_id with
  | none => (none, f1)
  | some tree =>
      match tree.add_leaf leaf_id payload now with
      | none => (none, f1)
      | some tree2 => (some tree2, ⟨f1.config, dictSet f1.trees thread_id tree2⟩)

/-- `MerkleForest.get_root_hash_for_thread` (Python conflates "branch
absent" and "branch with no root" into `None`). -/
def MerkleForest.get_root_hash_for_thread (f : MerkleForest)
    (thread_id : String) : Option String :=
  match f.trees.lookup thread_id with
  | none => none
  | some tree => tree.get_root_hash

/-- `MerkleForest.get_forest_roots`: `{tid: root_hash}` skipping rootless
trees. -/
def MerkleForest.get_forest_roots (f : MerkleForest) :
    List (String × String) :=
  f.trees.filterMap fun kv => (kv.2.get_root_hash).map (fun h => (kv.1, h))

/-- `MerkleForest.prune_thread`. -/
def MerkleForest.prune_thread (f : MerkleForest) (thread_id : String) :
    MerkleForest :=
  ⟨f.config, f.trees.filter (fun kv => kv.1 != thread_id)⟩

/-- A public forest operation: `add_fossil_to_thread` (with its call
time) or `prune_thread`. -/
inductive ForestOp : Type where
  | add (thread_id leaf_id : String) (payload : Payload) (now : Int)
  | prune (thread_id : String)

/-- Apply one public operation (a raising `add` still mutates, as in
Python). -/
def forestStep (f : MerkleForest) : ForestOp → MerkleForest
  | .add tid lid p now => (f.add_fossil_to_thread tid lid p now).2
  | .prune tid => f.prune_thread tid

/-- Does one public operation complete without raising? -/
def forestStepOk (f : MerkleForest) : ForestOp → Bool
  | .add tid lid p now => (f.add_fossil_to_thread tid lid p now).1.isSome
  | .prune _ => true

/-- Run a sequence of public operations. -/
def MerkleForest.run (f : MerkleForest) : List ForestOp → MerkleForest
  | [] => f
  | op :: rest => MerkleForest.run (forestStep f op) rest

/-- Does a whole sequence of public operations complete without
raising? -/
def MerkleForest.runOk (f : MerkleForest) : List ForestOp → Bool
  | [] => true
  | op :: rest => forestStepOk f op && MerkleForest.runOk (forestStep f op) rest

/-! ## Helper lemmas -/

/-- A leaf node (no children) as appended by `add_leaf`. -/
def leafNode (h : String) (lid : String) : MerkleNode :=
  .mk h none none true (some lid)

theorem pairUp_ne_nil {l : List MerkleNode} (h : l ≠ []) : pairUp l ≠ [] := by
  intro hc
  have := pairUp_length l
  rw [hc] at this
  cases l with
  | nil => exact h rfl
  | cons x xs => simp at this; omega

/-- In an odd-length level, the last produced parent pairs the last node
with itself. -/
theorem pairUp_last_odd :
    ∀ (level : List MerkleNode), level.length % 2 = 1 →
      (pairUp level).getLast? = (level.getLast?).map (fun y => mkParent y y) := by
  intro level
  induction level using pairUp.induct with
  | case1 => intro h; simp at h
  | case2 x => intro _; simp [pairUp]
  | case3 x y rest ih =>
      intro hodd
      simp only [List.length_cons] at hodd
      have hrodd : rest.length % 2 = 1 := by omega
      have hrne : rest ≠ [] := by
        intro hc; rw [hc] at hrodd; simp at hrodd
      obtain ⟨r, rs, rfl⟩ := List.exists_cons_of_ne_nil hrne
      have hpne : pairUp (r :: rs) ≠ [] := pairUp_ne_nil (by simp)
      obtain ⟨z, zs, hz⟩ := List.exists_cons_of_ne_nil hpne
      rw [pairUp, hz]
      simp only [List.getLast?_cons_cons]
      rw [← hz, ih hrodd]

/-! ## C4: odd-leaf duplication -/

/-- C4: in `_build_tree`, an odd-length level pairs its last node with
itself (`right = left`), and a tree over three leaves with hashes
`A`, `B`, `C` has root `SHA256(SHA256(A||B) || SHA256(C||C))` over the
concatenated hex strings. -/
theorem odd_leaf_duplication :
    (∀ (level : List MerkleNode), level.length % 2 = 1 →
      (pairUp level).getLast? = (level.getLast?).map (fun y => mkParent y y)) ∧
    (∀ (A B C : String) (ia ib ic : String),
      (buildRoot [leafNode A ia, leafNode B ib, leafNode C ic]).map
          MerkleNode.hash =
        some (sha256_hex_str
          (sha256_hex_str (A ++ B) ++ sha256_hex_str (C ++ C)))) := by
  constructor
  · exact pairUp_last_odd
  · intro A B C ia ib ic
    simp [buildRoot, pairUp, mkParent, leafNode, MerkleNode.hash]

/-- Witness for C4 at a concrete odd level and concrete leaf hashes. -/
theorem odd_leaf_duplication_witness :
    ([leafNode "aa" "1", leafNode "bb" "2", leafNode "cc" "3"].length % 2 = 1) ∧
    ((pairUp [leafNode "aa" "1", leafNode "bb" "2", leafNode "cc" "3"]).getLast? =
      ([leafNode "aa" "1", leafNode "bb" "2",
        leafNode "cc" "3"].getLast?).map (fun y => mkParent y y)) ∧
    ((buildRoot [leafNode "aa" "1", leafNode "bb" "2",
        leafNode "cc" "3"]).map MerkleNode.hash =
      some (sha256_hex_str
        (sha256_hex_str ("aa" ++ "bb") ++ sha256_hex_str ("cc" ++ "cc")))) :=
  ⟨by decide,
   odd_leaf_duplication.1 _ (by decide),
   odd_leaf_duplication.2 "aa" "bb" "cc" "1" "2" "3"⟩

/-! ## C10: `verify_inclusion` treats every non-`"R"` marker as `"L"` -/

/-- C10: `verify_inclusion` folds every proof step whose side marker is
not exactly `"R"` as if it were `"L"`; replacing side markers by any
strings that agree on being `"R"` leaves the result unchanged. -/
theorem verify_ignores_non_R_markers (lh rh : String)
    (p1 p2 : List (String × String)) (hlen : p1.length = p2.length)
    (hpt : ∀ q ∈ p1.zip p2, q.1.1 = q.2.1 ∧ (q.1.2 = "R" ↔ q.2.2 = "R")) :
    verify_inclusion lh rh p1 = verify_inclusion lh rh p2 := by
  unfold verify_inclusion
  suffices hs : p1.foldl verifyStep lh = p2.foldl verifyStep lh by rw [hs]
  induction p1 generalizing p2 lh with
  | nil =>
      cases p2 with
      | nil => rfl
      | cons b bs => simp at hlen
  | cons a as ih =>
      cases p2 with
      | nil => simp at hlen
      | cons b bs =>
          obtain ⟨hfst, hside⟩ := hpt (a, b) (by simp)
          have hfst2 : a.1 = b.1 := hfst
          have hside2 : a.2 = "R" ↔ b.2 = "R" := hside
          have hstep : verifyStep lh a = verifyStep lh b := by
            have hb : (a.2 == "R") = (b.2 == "R") := by
              by_cases hR : a.2 = "R"
              · simp [hR, hside2.mp hR]
              · have hR2 : ¬ b.2 = "R" := fun hc => hR (hside2.mpr hc)
                simp [hR, hR2]
            unfold verifyStep
            rw [hb, hfst2]
          simp only [List.foldl_cons, hstep]
          exact ih (verifyStep lh b) bs (by simpa using hlen)
            (fun q hq => hpt q (by simp [hq]))

/-- Witness for C10: an `"L"` marker replaced by `"X"` verifies
identically. -/
theorem verify_ignores_non_R_markers_witness :
    ([("s", "L")] : List (String × String)).length = [("s", "X")].length ∧
    verify_inclusion "a" "r" [("s", "L")] = verify_inclusion "a" "r" [("s", "X")] :=
  ⟨by decide,
   verify_ignores_non_R_markers "a" "r" [("s", "L")] [("s", "X")] (by decide)
     (by decide)⟩

/-! ## C9: the ledger mutates nothing when canonicalization fails -/

/-- C9: if `data` is not JSON-serializable (its `json.dumps` raises),
`record_entry` raises before any mutation: no record is produced and
the ledger — chain and `last_hash` — is returned exactly as it was. -/
theorem ledger_atomic_on_error (l : Ledger) (operation : String) (ts : Int)
    (data : PyVal) (hfail : dumps false data = none) :
    l.record_entry operation ts data = (none, l) := by
  unfold Ledger.record_entry
  have hch : compute_hash (Entry.toVal ⟨operation, ts, l.last_hash, data⟩)
      = none := by
    simp [compute_hash, canonicalize, Entry.toVal, dumps, dumpsPairs, hfail]
  simp [hch]

/-- Witness for C9 on a concrete non-serializable payload. -/
theorem ledger_atomic_on_error_witness :
    dumps false (PyVal.obj 0) = none ∧
    Ledger.fresh.record_entry "op" 5 (PyVal.obj 0) = (none, Ledger.fresh) :=
  ⟨rfl, ledger_atomic_on_error Ledger.fresh "op" 5 (PyVal.obj 0) rfl⟩

/-! ## C5: digest passthrough -/

/-- C5 counterexample: the claim says a payload containing a `digest`
field gets that value back unchanged, but `payload.get("digest") or ...`
falls through on the falsy empty-string digest and recomputes the
hash. -/
theorem digest_passthrough_counterexample :
    canonical_leaf_hash [("digest", PyVal.str "")] ≠
      some (PyVal.str "") := by
  have he : canonical_leaf_hash [("digest", PyVal.str "")] =
      some (PyVal.str (sha256_hex_str "\x7b\x7d")) := rfl
  rw [he]
  intro h
  have h1 : PyVal.str (sha256_hex_str "\x7b\x7d") = PyVal.str "" :=
    Option.some.inj h
  have h2 : sha256_hex_str "\x7b\x7d" = "" := by injection h1
  exact absurd h2 (by decide)

/-- C5 amended: if the payload's `digest` value is truthy (and the rest
of the payload serializes), `canonical_leaf_hash` returns it unchanged;
when `digest` is absent or falsy it returns the SHA-256 of the
canonicalized payload with the `digest` key excluded. -/
theorem digest_passthrough_amended (payload : Payload) (cp : String)
    (hc : canonicalize_jcs (payload.filter (fun kv => kv.1 != "digest"))
      = some cp) :
    (∀ v, payload.lookup "digest" = some v → py_truthy v = true →
        canonical_leaf_hash payload = some v) ∧
    (py_truthy ((payload.lookup "digest").getD PyVal.null) = false →
        canonical_leaf_hash payload =
          some (PyVal.str (sha256_hex_str cp))) := by
  constructor
  · intro v hv htr
    simp [canonical_leaf_hash, HashSurfaces.from_payload, hc, hv, htr]
  · intro hf
    simp [canonical_leaf_hash, HashSurfaces.from_payload, hc, hf]

/-- Witness for C5 at a truthy declared digest. -/
theorem digest_passthrough_amended_witness :
    (canonicalize_jcs
        (([("digest", PyVal.str "ab"), ("z", PyVal.int 1)] : Payload).filter
          (fun kv => kv.1 != "digest")) = some "\x7b\"z\":1\x7d") ∧
    ((∀ v, ([("digest", PyVal.str "ab"), ("z", PyVal.int 1)] : Payload).lookup
          "digest" = some v → py_truthy v = true →
        canonical_leaf_hash [("digest", PyVal.str "ab"), ("z", PyVal.int 1)]
          = some v) ∧
     (py_truthy ((([("digest", PyVal.str "ab"), ("z", PyVal.int 1)] :
          Payload).lookup "digest").getD PyVal.null) = false →
        canonical_leaf_hash [("digest", PyVal.str "ab"), ("z", PyVal.int 1)]
          = some (PyVal.str (sha256_hex_str "\x7b\"z\":1\x7d")))) :=
  ⟨rfl, digest_passthrough_amended _ _ rfl⟩

/-! ## C3: capacity eviction -/

/-- C3 counterexample: with `max_trees = 2` (default staleness), after
adding one leaf each to `b1`, `b2`, `b3`, branch `b1` is still in the
forest — `_maybe_prune` runs before the insertion, when the count is
not yet above the cap. -/
theorem forest_capacity_counterexample :
    ((((MerkleForest.empty ⟨86400, 2⟩).run
        [.add "b1" "l1" [("digest", PyVal.str "aa")] 0,
         .add "b2" "l2" [("digest", PyVal.str "bb")] 1,
         .add "b3" "l3" [("digest", PyVal.str "cc")] 2]).trees.lookup
      "b1").isSome) = true := by decide

/-- C3 amended: with `max_trees = 2`, adding to the three distinct
branches `b1, b2, b3` leaves all three of `b1, b2, b3` in the forest
(the count may reach `max_trees + 1`); the oldest branch `b1` is only
evicted when a write creates a fourth branch `b4`, leaving
`b2, b3, b4`. -/
theorem forest_capacity_eviction_amended :
    (((MerkleForest.empty ⟨86400, 2⟩).run
        [.add "b1" "l1" [("digest", PyVal.str "aa")] 0,
         .add "b2" "l2" [("digest", PyVal.str "bb")] 1,
         .add "b3" "l3" [("digest", PyVal.str "cc")] 2]).trees.map (·.1)
      = ["b1", "b2", "b3"]) ∧
    (((MerkleForest.empty ⟨86400, 2⟩).run
        [.add "b1" "l1" [("digest", PyVal.str "aa")] 0,
         .add "b2" "l2" [("digest", PyVal.str "bb")] 1,
         .add "b3" "l3" [("digest", PyVal.str "cc")] 2,
         .add "b4" "l4" [("digest", PyVal.str "dd")] 3]).trees.map (·.1)
      = ["b2", "b3", "b4"]) := by
  exact ⟨by decide, by decide⟩

/-! ## C6: the two canonicalizers -/

/-- Is every character of the string ASCII-printable-safe (< `0x7f`)? -/
def asciiOnlyStr (s : String) : Bool :=
  s.data.all fun c => decide (c.toNat < 127)

mutual
/-- Do all strings (keys and values) in the value stay below `0x7f`? -/
def asciiOnly : PyVal → Bool
  | .null => true
  | .bool _ => true
  | .int _ => true
  | .str s => asciiOnlyStr s
  | .list xs => asciiOnlyList xs
  | .dict kvs => asciiOnlyPairs kvs
  | .obj _ => true

def asciiOnlyList : List PyVal → Bool
  | [] => true
  | x :: xs => asciiOnly x && asciiOnlyList xs

def asciiOnlyPairs : List (String × PyVal) → Bool
  | [] => true
  | (k, v) :: kvs => asciiOnlyStr k && asciiOnly v && asciiOnlyPairs kvs
end

set_option maxHeartbeats 1000000 in
theorem escChar_agree (c : Char) (h : c.toNat < 127) :
    escCharASCII c = escCharStd c := by
  simp only [escCharASCII, escCharStd]
  split_ifs <;> first | omega | rfl

theorem encodeJsonStr_agree (s : String) (h : asciiOnlyStr s = true) :
    encodeJsonStr true s = encodeJsonStr false s := by
  have hmap : s.data.map escCharASCII = s.data.map escCharStd := by
    apply List.map_congr_left
    intro c hc
    exact escChar_agree c (by
      have := (List.all_eq_true.mp h) c hc
      exact of_decide_eq_true this)
  simp [encodeJsonStr, hmap]

theorem insertSorted_mem {lt : α → α → Bool} {x y : α} {l : List α}
    (h : y ∈ insertSorted lt x l) : y = x ∨ y ∈ l := by
  induction l with
  | nil => simpa [insertSorted] using h
  | cons z zs ih =>
      simp only [insertSorted] at h
      by_cases hc : lt z x
      · rw [if_pos hc] at h
        rcases List.mem_cons.mp h with hz | hz
        · exact Or.inr (by simp [hz])
        · rcases ih hz with h1 | h1
          · exact Or.inl h1
          · exact Or.inr (by simp [h1])
      · rw [if_neg hc] at h
        rcases List.mem_cons.mp h with hz | hz
        · exact Or.inl hz
        · exact Or.inr hz

theorem sortedBy_mem {lt : α → α → Bool} {y : α} {l : List α}
    (h : y ∈ sortedBy lt l) : y ∈ l := by
  induction l with
  | nil => simpa [sortedBy] using h
  | cons z zs ih =>
      simp only [sortedBy] at h
      rcases insertSorted_mem h with h1 | h1
      · simp [h1]
      · simp [ih h1]

/-- Keys coming out of `dumpsPairs` are keys of the dict, so they
inherit the ASCII bound. -/
theorem dumpsPairs_keys_ascii :
    ∀ (kvs : List (String × PyVal)), asciiOnlyPairs kvs = true →
      ∀ ps, dumpsPairs false kvs = some ps →
      ∀ p ∈ ps, asciiOnlyStr p.1 = true := by
  intro kvs
  induction kvs with
  | nil =>
      intro _ ps hps p hp
      simp only [dumpsPairs] at hps
      obtain rfl := Option.some.inj hps.symm
      simp at hp
  | cons kv rest ih =>
      obtain ⟨k, v⟩ := kv
      intro h ps hps p hp
      have h1 : asciiOnlyStr k = true := by
        simp only [asciiOnlyPairs, Bool.and_eq_true] at h; exact h.1.1
      have h2 : asciiOnlyPairs rest = true := by
        simp only [asciiOnlyPairs, Bool.and_eq_true] at h; exact h.2
      simp only [dumpsPairs, Option.pure_def, Option.bind_eq_bind,
        Option.bind] at hps
      cases hv : dumps false v with
      | none => rw [hv] at hps; simp at hps
      | some s =>
          rw [hv] at hps
          cases hrest : dumpsPairs false rest with
          | none => rw [hrest] at hps; simp at hps
          | some ps2 =>
              rw [hrest] at hps
              simp only [Option.some.injEq] at hps
              subst hps
              rcases List.mem_cons.mp hp with h3 | h3
              · rw [h3]; exact h1
              · exact ih h2 ps2 hrest p h3

mutual
theorem dumps_agree :
    ∀ v, asciiOnly v = true → dumps true v = dumps false v
  | .null, _ => rfl
  | .bool true, _ => rfl
  | .bool false, _ => rfl
  | .int _, _ => rfl
  | .str s, h => by
      simp only [dumps]
      rw [encodeJsonStr_agree s (by simpa [asciiOnly] using h)]
  | .list xs, h => by
      simp only [dumps]
      rw [dumpsList_agree xs (by simpa [asciiOnly] using h)]
  | .dict kvs, h => by
      have hp : asciiOnlyPairs kvs = true := by simpa [asciiOnly] using h
      simp only [dumps]
      rw [dumpsPairs_agree kvs hp]
      cases hd : dumpsPairs false kvs with
      | none => rfl
      | some ps =>
          simp only [Option.map_some']
          have hl : (sortedBy keyLt ps).map
                (fun p => encodeJsonStr true p.1 ++ ":" ++ p.2)
              = (sortedBy keyLt ps).map
                (fun p => encodeJsonStr false p.1 ++ ":" ++ p.2) := by
            apply List.map_congr_left
            intro p hp2
            rw [encodeJsonStr_agree p.1
              (dumpsPairs_keys_ascii kvs hp ps hd p (sortedBy_mem hp2))]
          rw [hl]
  | .obj _, _ => rfl

theorem dumpsList_agree :
    ∀ xs, asciiOnlyList xs = true → dumpsList true xs = dumpsList false xs
  | [], _ => rfl
  | x :: xs, h => by
      have h1 : asciiOnly x = true := by
        simp only [asciiOnlyList, Bool.and_eq_true] at h; exact h.1
      have h2 : asciiOnlyList xs = true := by
        simp only [asciiOnlyList, Bool.and_eq_true] at h; exact h.2
      simp only [dumpsList]
      rw [dumps_agree x h1, dumpsList_agree xs h2]

theorem dumpsPairs_agree :
    ∀ kvs, asciiOnlyPairs kvs = true →
      dumpsPairs true kvs = dumpsPairs false kvs
  | [], _ => rfl
  | (k, v) :: kvs, h => by
      have h1 : asciiOnly v = true := by
        simp only [asciiOnlyPairs, Bool.and_eq_true] at h; exact h.1.2
      have h2 : asciiOnlyPairs kvs = true := by
        simp only [asciiOnlyPairs, Bool.and_eq_true] at h; exact h.2
      simp only [dumpsPairs]
      rw [dumps_agree v h1, dumpsPairs_agree kvs h2]
end

/-- C6 counterexample: on `{"k": "é"}` the Merkle-side canonicalization
escapes the non-ASCII character (`é`) while the ledger-side
canonicalize passes it through as UTF-8, so the bytes differ. -/
theorem canonical_agreement_counterexample :
    ¬ ((canonicalize_jcs [("k", PyVal.str (String.mk [Char.ofNat 233]))]).map
        strBytes
      = canonicalize (.dict [("k", PyVal.str (String.mk [Char.ofNat 233]))])) := by
  decide

/-- C6 amended: the two canonicalizations agree byte-for-byte on
payloads all of whose strings (keys and values) stay below code point
`0x7f`; on non-ASCII strings the ledger side passes the characters
through while the Merkle side (`ensure_ascii` default) escapes them. -/
theorem canonical_agreement_amended (payload : Payload)
    (hascii : asciiOnly (.dict payload) = true) :
    (canonicalize_jcs payload).map strBytes = canonicalize (.dict payload) := by
  unfold canonicalize_jcs canonicalize
  rw [dumps_agree _ hascii]

/-- Witness for C6 on a concrete all-ASCII payload. -/
theorem canonical_agreement_amended_witness :
    asciiOnly (.dict [("a", PyVal.int 1), ("k", PyVal.str "x")]) = true ∧
    (canonicalize_jcs [("a", PyVal.int 1), ("k", PyVal.str "x")]).map strBytes
      = canonicalize (.dict [("a", PyVal.int 1), ("k", PyVal.str "x")]) :=
  ⟨by decide, canonical_agreement_amended _ (by decide)⟩

/-! ## C7: staleness eviction -/

theorem lookup_eq_none_iff {α : Type} (l : List (String × α)) (k : String) :
    l.lookup k = none ↔ ∀ p ∈ l, p.1 ≠ k := by
  induction l with
  | nil => simp
  | cons p ps ih =>
      obtain ⟨k0, v0⟩ := p
      by_cases hk : k = k0
      · subst hk
        simp [List.lookup]
      · constructor
        · intro h q hq
          rcases List.mem_cons.mp hq with h1 | h1
          · rw [h1]; exact fun hc => hk hc.symm
          · have : ps.lookup k = none := by
              simpa [List.lookup, beq_eq_false_iff_ne.mpr hk] using h
            exact (ih.mp this) q h1
        · intro h
          have : ps.lookup k = none :=
            ih.mpr (fun q hq => h q (List.mem_cons_of_mem _ hq))
          simpa [List.lookup, beq_eq_false_iff_ne.mpr hk] using this

theorem nodup_keys_eq {α : Type} {l : List (String × α)}
    (hnd : (l.map (·.1)).Nodup) {k : String} {a b : α}
    (ha : (k, a) ∈ l) (hb : (k, b) ∈ l) : a = b := by
  induction l with
  | nil => simp at ha
  | cons p ps ih =>
      simp only [List.map_cons, List.nodup_cons] at hnd
      rcases List.mem_cons.mp ha with h1 | h1 <;>
        rcases List.mem_cons.mp hb with h2 | h2
      · have h3 : (k, a) = (k, b) := h1.trans h2.symm
        exact (Prod.ext_iff.mp h3).2
      · exfalso
        exact hnd.1 (by
          rw [← h1]
          exact List.mem_map.mpr ⟨(k, b), h2, rfl⟩)
      · exfalso
        exact hnd.1 (by
          rw [← h2]
          exact List.mem_map.mpr ⟨(k, a), h1, rfl⟩)
      · exact ih hnd.2 h1 h2

/-- C7 counterexample: with `stale_seconds = 0`, a write to an already
existing branch `b2` does not evict branch `b1` even though `b1`'s last
update (time 0) strictly precedes the call (time 1): `_maybe_prune`
only runs when the written branch is new. -/
theorem stale_eviction_counterexample :
    ((((MerkleForest.empty ⟨0, 128⟩).run
        [.add "b1" "l1" [("digest", PyVal.str "aa")] 0,
         .add "b2" "l2" [("digest", PyVal.str "bb")] 0]).trees.lookup
        "b1").map MerkleTree.last_updated_utc = some 0) ∧
    ((((MerkleForest.empty ⟨0, 128⟩).run
        [.add "b1" "l1" [("digest", PyVal.str "aa")] 0,
         .add "b2" "l2" [("digest", PyVal.str "bb")] 0,
         .add "b2" "l3" [("digest", PyVal.str "cc")] 1]).trees.lookup
        "b1").isSome = true) := by
  exact ⟨by decide, by decide⟩

/-- C7 amended: with `stale_seconds = 0`, when `add_fossil_to_thread`
is called at time `now` for a branch `b2` that is *not yet in the
forest*, every other branch whose last update strictly precedes `now`
is evicted by the pruning pass that precedes the branch creation. -/
theorem stale_eviction_amended (f : MerkleForest) (b2 lid : String)
    (payload : Payload) (now : Int)
    (hstale : f.config.stale_seconds = 0)
    (hnew : f.trees.lookup b2 = none)
    (hnodup : (f.trees.map (·.1)).Nodup)
    (tid : String) (tr : MerkleTree)
    (hmem : (tid, tr) ∈ f.trees) (hne : tid ≠ b2)
    (hold : tr.last_updated_utc < now) :
    ((f.add_fossil_to_thread b2 lid payload now).2.trees.lookup tid) = none := by
  have hA : ∀ p ∈ (f.maybe_prune now).trees, p.1 ≠ tid := by
    intro p hp hptid
    have hpt1 : p ∈ f.trees.filter
        (fun kv => !(decide (now - kv.2.last_updated_utc >
          f.config.stale_seconds))) := by
      simp only [MerkleForest.maybe_prune] at hp
      split at hp
      · exact List.mem_of_mem_filter hp
      · exact hp
    have hpf : p ∈ f.trees := List.mem_of_mem_filter hpt1
    have hpred := List.of_mem_filter hpt1
    have hpeq : p.2 = tr := by
      apply nodup_keys_eq hnodup _ hmem
      rw [← hptid]
      exact hpf
    rw [hpeq, hstale] at hpred
    simp only [Bool.not_eq_true', decide_eq_false_iff_not, not_lt] at hpred
    omega
  have hB : ∀ p ∈ (f.add_fossil_to_thread b2 lid payload now).2.trees,
      p.1 ≠ tid := by
    have hnew2 : (f.trees.lookup b2).isSome = false := by rw [hnew]; rfl
    intro p hp
    simp only [MerkleForest.add_fossil_to_thread, hnew2, Bool.false_eq_true,
      if_false] at hp
    set f1trees := (f.maybe_prune now).trees ++
      [(b2, MerkleTree.fresh b2 now)] with hf1
    have hf1mem : ∀ q ∈ f1trees, q.1 ≠ tid := by
      intro q hq
      rcases List.mem_append.mp hq with h1 | h1
      · exact hA q h1
      · have : q = (b2, MerkleTree.fresh b2 now) := by simpa using h1
        rw [this]
        exact fun hc => hne hc.symm
    split at hp
    · exact hf1mem p hp
    · split at hp
      · exact hf1mem p hp
      · rcases List.mem_map.mp hp with ⟨q, hq, hgq⟩
        by_cases hqb : q.1 = b2
        · rw [if_pos hqb] at hgq
          rw [← hgq]
          exact fun hc => hne hc.symm
        · rw [if_neg hqb] at hgq
          rw [← hgq]
          exact hf1mem q hq
  exact (lookup_eq_none_iff _ _).mpr hB

/-- A concrete forest state for the C7 witness: `stale_seconds = 0` and
one branch `b1` last updated at time 0. -/
def wForest7 : MerkleForest :=
  ⟨⟨0, 128⟩, [("b1", MerkleTree.fresh "b1" 0)]⟩

/-- Witness for C7: writing the new branch `b2` at time 1 evicts `b1`. -/
theorem stale_eviction_amended_witness :
    wForest7.config.stale_seconds = 0 ∧
    wForest7.trees.lookup "b2" = none ∧
    (wForest7.trees.map (·.1)).Nodup ∧
    ("b1", MerkleTree.fresh "b1" 0) ∈ wForest7.trees ∧
    "b1" ≠ "b2" ∧
    (MerkleTree.fresh "b1" 0).last_updated_utc < 1 ∧
    ((wForest7.add_fossil_to_thread "b2" "l" [("digest", PyVal.str "aa")]
        1).2.trees.lookup "b1") = none :=
  ⟨rfl, rfl, by simp [wForest7], List.mem_cons_self _ _, by decide, by decide,
   stale_eviction_amended wForest7 "b2" "l" [("digest", PyVal.str "aa")] 1
     rfl rfl (by simp [wForest7]) "b1" (MerkleTree.fresh "b1" 0)
     (List.mem_cons_self _ _) (by decide) (by decide)⟩

/-! ## C2: chain integrity -/

/-- The chain links correctly starting from previous hash `p`: each
record's `prev` is the hash before it and its stored hash recomputes
from its entry. -/
def linkedFrom : String → List Record → Prop
  | _, [] => True
  | p, r :: rest =>
      r.entry.prev = p ∧ compute_hash r.entry.toVal = some r.hash ∧
        linkedFrom r.hash rest

/-- The hash of the last record, or `p` for an empty chain. -/
def lastHashOf : String → List Record → String
  | p, [] => p
  | _, r :: rest => lastHashOf r.hash rest

theorem lastHashOf_append_one :
    ∀ (c : List Record) (p : String) (r : Record),
      lastHashOf p (c ++ [r]) = r.hash := by
  intro c
  induction c with
  | nil => intro p r; rfl
  | cons q qs ih => intro p r; exact ih q.hash r

theorem linkedFrom_append_one :
    ∀ (c : List Record) (p : String) (r : Record),
      linkedFrom p c → r.entry.prev = lastHashOf p c →
      compute_hash r.entry.toVal = some r.hash →
      linkedFrom p (c ++ [r]) := by
  intro c
  induction c with
  | nil =>
      intro p r _ hprev hh
      exact ⟨hprev, hh, trivial⟩
  | cons q qs ih =>
      intro p r hl hprev hh
      obtain ⟨h1, h2, h3⟩ := hl
      exact ⟨h1, h2, ih q.hash r h3 hprev hh⟩

theorem compute_hash_entry_isSome (op : String) (ts : Int) (prev : String)
    (d : PyVal) (hd : (dumps false d).isSome = true) :
    (compute_hash (Entry.toVal ⟨op, ts, prev, d⟩)).isSome = true := by
  obtain ⟨s, hs⟩ := Option.isSome_iff_exists.mp hd
  simp [compute_hash, canonicalize, Entry.toVal, dumps, dumpsPairs, hs]

/-- The hash-chain invariant of a ledger state. -/
def LedgerInv (l : Ledger) : Prop :=
  linkedFrom zeros64 l.chain ∧ l.last_hash = lastHashOf zeros64 l.chain

theorem record_entry_inv (l : Ledger) (op : String) (ts : Int) (d : PyVal)
    (hd : (dumps false d).isSome = true) (hinv : LedgerInv l) :
    LedgerInv (l.record_entry op ts d).2 ∧
    (l.record_entry op ts d).2.chain = l.chain ++
      [⟨((l.record_entry op ts d).2).last_hash, ⟨op, ts, l.last_hash, d⟩⟩] := by
  have hs := compute_hash_entry_isSome op ts l.last_hash d hd
  obtain ⟨h, hh⟩ := Option.isSome_iff_exists.mp hs
  unfold Ledger.record_entry
  simp only [hh]
  constructor
  · constructor
    · exact linkedFrom_append_one l.chain zeros64 _ hinv.1
        (by simpa using hinv.2) (by simpa using hh)
    · simp [lastHashOf_append_one]
  · trivial

theorem run_inv :
    ∀ (inputs : List (String × Int × PyVal)) (l : Ledger),
      (∀ x ∈ inputs, (dumps false x.2.2).isSome = true) → LedgerInv l →
      LedgerInv (l.run inputs) ∧
      (l.run inputs).chain.length = l.chain.length + inputs.length := by
  intro inputs
  induction inputs with
  | nil => intro l _ hinv; exact ⟨hinv, rfl⟩
  | cons x rest ih =>
      intro l hok hinv
      obtain ⟨op, ts, d⟩ := x
      have hd : (dumps false d).isSome = true :=
        hok (op, ts, d) (List.mem_cons_self _ _)
      have hstep := record_entry_inv l op ts d hd hinv
      have hrec := ih (l.record_entry op ts d).2
        (fun y hy => hok y (List.mem_cons_of_mem _ hy)) hstep.1
      refine ⟨hrec.1, ?_⟩
      show (Ledger.run (l.record_entry op ts d).2 rest).chain.length = _
      rw [hrec.2, hstep.2]
      simp [List.length_append]
      omega

theorem linkedFrom_first_prev :
    ∀ (c : List Record) (p : String), linkedFrom p c →
      ∀ (h0 : 0 < c.length), (c.get ⟨0, h0⟩).entry.prev = p := by
  intro c
  induction c with
  | nil => intro p _ h0; simp at h0
  | cons r rest _ => intro p hl _; exact hl.1

theorem linkedFrom_get_prev :
    ∀ (c : List Record) (p : String), linkedFrom p c →
      ∀ i (h1 : i + 1 < c.length) (h0 : i < c.length),
        (c.get ⟨i + 1, h1⟩).entry.prev = (c.get ⟨i, h0⟩).hash := by
  intro c
  induction c with
  | nil => intro p _ i h1; intro h0; simp at h1
  | cons r rest ih =>
      intro p hl i h1 h0
      obtain ⟨hprev, hh, hrest⟩ := hl
      cases i with
      | zero =>
          cases rest with
          | nil => simp at h1
          | cons r2 rs => exact hrest.1
      | succ j =>
          exact ih r.hash hrest j (by simpa using h1) (by
            simp only [List.length_cons] at h0; omega)

theorem linkedFrom_get_hash :
    ∀ (c : List Record) (p : String), linkedFrom p c →
      ∀ i (h : i < c.length),
        compute_hash ((c.get ⟨i, h⟩).entry.toVal) =
          some ((c.get ⟨i, h⟩).hash) := by
  intro c
  induction c with
  | nil => intro p _ i h; simp at h
  | cons r rest ih =>
      intro p hl i h
      obtain ⟨hprev, hh, hrest⟩ := hl
      cases i with
      | zero => exact hh
      | succ j => exact ih r.hash hrest j (by
          simp only [List.length_cons] at h; omega)

/-- C2: starting from a fresh ledger, `N` successful `record_entry` calls
produce a chain of `N` records whose first `prev` is the 64-zero
genesis, whose every later `prev` equals the previous stored hash, and
whose every stored hash recomputes from its own entry. -/
theorem ledger_chain_integrity (inputs : List (String × Int × PyVal))
    (hok : ∀ x ∈ inputs, (dumps false x.2.2).isSome = true) :
    (Ledger.fresh.run inputs).chain.length = inputs.length ∧
    (∀ (h0 : 0 < (Ledger.fresh.run inputs).chain.length),
      ((Ledger.fresh.run inputs).chain.get ⟨0, h0⟩).entry.prev = zeros64) ∧
    (∀ i (h1 : i + 1 < (Ledger.fresh.run inputs).chain.length)
        (h0 : i < (Ledger.fresh.run inputs).chain.length),
      ((Ledger.fresh.run inputs).chain.get ⟨i + 1, h1⟩).entry.prev =
        ((Ledger.fresh.run inputs).chain.get ⟨i, h0⟩).hash) ∧
    (∀ i (h : i < (Ledger.fresh.run inputs).chain.length),
      compute_hash (((Ledger.fresh.run inputs).chain.get ⟨i, h⟩).entry.toVal) =
        some (((Ledger.fresh.run inputs).chain.get ⟨i, h⟩).hash)) := by
  have hfresh : LedgerInv Ledger.fresh := ⟨trivial, rfl⟩
  have hrun := run_inv inputs Ledger.fresh hok hfresh
  refine ⟨by simpa [Ledger.fresh] using hrun.2, ?_, ?_, ?_⟩
  · intro h0
    exact linkedFrom_first_prev _ zeros64 hrun.1.1 h0
  · exact linkedFrom_get_prev _ zeros64 hrun.1.1
  · exact linkedFrom_get_hash _ zeros64 hrun.1.1

/-- Witness for C2 on two concrete entries. -/
theorem ledger_chain_integrity_witness :
    (∀ x ∈ ([("op1", 3, PyVal.dict []), ("op2", 4, PyVal.str "x")] :
        List (String × Int × PyVal)), (dumps false x.2.2).isSome = true) ∧
    ((Ledger.fresh.run
        [("op1", 3, PyVal.dict []), ("op2", 4, PyVal.str "x")]).chain.length
      = 2 ∧
     (∀ (h0 : 0 < (Ledger.fresh.run [("op1", 3, PyVal.dict []),
          ("op2", 4, PyVal.str "x")]).chain.length),
       ((Ledger.fresh.run [("op1", 3, PyVal.dict []),
          ("op2", 4, PyVal.str "x")]).chain.get ⟨0, h0⟩).entry.prev
         = zeros64) ∧
     (∀ i (h1 : i + 1 < (Ledger.fresh.run [("op1", 3, PyVal.dict []),
          ("op2", 4, PyVal.str "x")]).chain.length)
         (h0 : i < (Ledger.fresh.run [("op1", 3, PyVal.dict []),
          ("op2", 4, PyVal.str "x")]).chain.length),
       ((Ledger.fresh.run [("op1", 3, PyVal.dict []),
          ("op2", 4, PyVal.str "x")]).chain.get ⟨i + 1, h1⟩).entry.prev =
         ((Ledger.fresh.run [("op1", 3, PyVal.dict []),
          ("op2", 4, PyVal.str "x")]).chain.get ⟨i, h0⟩).hash) ∧
     (∀ i (h : i < (Ledger.fresh.run [("op1", 3, PyVal.dict []),
          ("op2", 4, PyVal.str "x")]).chain.length),
       compute_hash (((Ledger.fresh.run [("op1", 3, PyVal.dict []),
          ("op2", 4, PyVal.str "x")]).chain.get ⟨i, h⟩).entry.toVal) =
         some (((Ledger.fresh.run [("op1", 3, PyVal.dict []),
          ("op2", 4, PyVal.str "x")]).chain.get ⟨i, h⟩).hash))) :=
  ⟨by decide, ledger_chain_integrity _ (by decide)⟩

/-! ## C8: no empty trees in the forest -/

theorem buildRoot_isSome :
    ∀ (l : List MerkleNode), l ≠ [] → (buildRoot l).isSome = true := by
  intro l
  induction l using buildRoot.induct with
  | case1 => intro h; exact absurd rfl h
  | case2 x => intro _; simp [buildRoot]
  | case3 x y rest ih =>
      intro _
      rw [buildRoot]
      exact ih (pairUp_ne_nil (by simp))

theorem dictSet_keys (m : List (String × MerkleTree)) (k : String)
    (v : MerkleTree) : (dictSet m k v).map (·.1) = m.map (·.1) := by
  induction m with
  | nil => rfl
  | cons p ps ih =>
      simp only [dictSet, List.map_cons, List.map_map] at ih ⊢
      by_cases hp : p.1 = k
      · simp [hp, ih]
      · simp [hp, ih]

theorem dictSet_mem {m : List (String × MerkleTree)} {k : String}
    {v : MerkleTree} {p : String × MerkleTree} (h : p ∈ dictSet m k v) :
    p = (k, v) ∨ (p ∈ m ∧ p.1 ≠ k) := by
  rcases List.mem_map.mp h with ⟨q, hq, hgq⟩
  by_cases hqk : q.1 = k
  · rw [if_pos hqk] at hgq
    exact Or.inl hgq.symm
  · rw [if_neg hqk] at hgq
    rw [← hgq]
    exact Or.inr ⟨hq, hqk⟩

theorem lookup_append_last {α : Type} (l : List (String × α)) (k : String)
    (v : α) (h : l.lookup k = none) :
    ((l ++ [(k, v)]).lookup k) = some v := by
  induction l with
  | nil => simp [List.lookup]
  | cons p ps ih =>
      obtain ⟨k0, v0⟩ := p
      by_cases hk : k = k0
      · subst hk; simp [List.lookup] at h
      · have h2 : ps.lookup k = none := by
          simpa [List.lookup, beq_eq_false_iff_ne.mpr hk] using h
        simpa [List.lookup, beq_eq_false_iff_ne.mpr hk] using ih h2

theorem lookup_of_mem_nodup {α : Type} {l : List (String × α)}
    (hnd : (l.map (·.1)).Nodup) {k : String} {v : α} (h : (k, v) ∈ l) :
    l.lookup k = some v := by
  induction l with
  | nil => simp at h
  | cons p ps ih =>
      obtain ⟨k0, v0⟩ := p
      simp only [List.map_cons, List.nodup_cons] at hnd
      rcases List.mem_cons.mp h with h1 | h1
      · obtain ⟨hk, hv⟩ := Prod.ext_iff.mp h1.symm
        simp only at hk hv
        subst hk
        simp [List.lookup, hv.symm]
      · have hk : k ≠ k0 := by
          intro hc
          subst hc
          exact hnd.1 (List.mem_map.mpr ⟨(k, v), h1, rfl⟩)
        simpa [List.lookup, beq_eq_false_iff_ne.mpr hk] using ih hnd.2 h1

/-- The C8 invariant: branch keys are unique, and every tree in the
forest has at least one leaf and a non-null root. -/
def ForestInv (f : MerkleForest) : Prop :=
  (f.trees.map (·.1)).Nodup ∧
  ∀ kv ∈ f.trees, kv.2.leaves ≠ [] ∧ (kv.2.root).isSome = true

theorem maybe_prune_sub (f : MerkleForest) (now : Int) :
    ∀ p ∈ (f.maybe_prune now).trees, p ∈ f.trees := by
  intro p hp
  simp only [MerkleForest.maybe_prune] at hp
  split at hp
  · exact List.mem_of_mem_filter (List.mem_of_mem_filter hp)
  · exact List.mem_of_mem_filter hp

theorem maybe_prune_sublist (f : MerkleForest) (now : Int) :
    (f.maybe_prune now).trees.Sublist f.trees := by
  simp only [MerkleForest.maybe_prune]
  split
  · exact (List.filter_sublist _).trans (List.filter_sublist _)
  · exact List.filter_sublist _

theorem add_leaf_good {t t2 : MerkleTree} {lid : String} {p : Payload}
    {now : Int} (h : t.add_leaf lid p now = some t2) :
    t2.leaves ≠ [] ∧ (t2.root).isSome = true := by
  unfold MerkleTree.add_leaf at h
  split at h
  · obtain rfl := Option.some.inj h
    refine ⟨by simp, ?_⟩
    exact buildRoot_isSome _ (by simp)
  · exact absurd h (by simp)

theorem forest_step_inv (f : MerkleForest) (op : ForestOp)
    (hok : forestStepOk f op = true) (hinv : ForestInv f) :
    ForestInv (forestStep f op) := by
  cases op with
  | prune tid =>
      refine ⟨?_, ?_⟩
      · exact ((List.filter_sublist _).map _).nodup hinv.1
      · intro kv hkv
        exact hinv.2 kv (List.mem_of_mem_filter hkv)
  | add tid lid payload now =>
      simp only [forestStepOk] at hok
      simp only [forestStep]
      unfold MerkleForest.add_fossil_to_thread at hok ⊢
      by_cases hex : (f.trees.lookup tid).isSome
      · obtain ⟨tree, htree⟩ := Option.isSome_iff_exists.mp hex
        simp only [htree, Option.isSome_some, if_true] at hok ⊢
        cases hadd : tree.add_leaf lid payload now with
        | none => rw [hadd] at hok; simp at hok
        | some tree2 =>
            dsimp only
            refine ⟨by rw [dictSet_keys]; exact hinv.1, ?_⟩
            intro kv hkv
            rcases dictSet_mem hkv with h1 | h1
            · rw [h1]; exact add_leaf_good hadd
            · exact hinv.2 kv h1.1
      · have hnone : f.trees.lookup tid = none :=
          Option.not_isSome_iff_eq_none.mp hex
        have hpr := maybe_prune_sub f now
        have hprnd : ((f.maybe_prune now).trees.map (·.1)).Nodup :=
          ((maybe_prune_sublist f now).map _).nodup hinv.1
        have hkeyfresh : ((f.maybe_prune now).trees.lookup tid) = none := by
          apply (lookup_eq_none_iff _ _).mpr
          intro p hp
          exact (lookup_eq_none_iff _ _).mp hnone p (hpr p hp)
        have hlk : (((f.maybe_prune now).trees ++
            [(tid, MerkleTree.fresh tid now)]).lookup tid)
            = some (MerkleTree.fresh tid now) :=
          lookup_append_last _ _ _ hkeyfresh
        simp only [hnone, Option.isSome_none, Bool.false_eq_true, if_false,
          hlk] at hok ⊢
        cases hadd : (MerkleTree.fresh tid now).add_leaf lid payload now with
        | none => rw [hadd] at hok; simp at hok
        | some tree2 =>
            dsimp only
            have hnd2 : (((f.maybe_prune now).trees ++
                [(tid, MerkleTree.fresh tid now)]).map (·.1)).Nodup := by
              rw [List.map_append]
              apply List.Nodup.append hprnd (by simp)
              intro a ha hb
              simp only [List.map_cons, List.map_nil, List.mem_singleton] at hb
              subst hb
              rcases List.mem_map.mp ha with ⟨q, hq, hqa⟩
              exact (lookup_eq_none_iff _ _).mp hkeyfresh q hq hqa
            refine ⟨by rw [dictSet_keys]; exact hnd2, ?_⟩
            intro kv hkv
            rcases dictSet_mem hkv with h1 | h1
            · rw [h1]; exact add_leaf_good hadd
            · rcases List.mem_append.mp h1.1 with h2 | h2
              · exact hinv.2 kv (hpr kv h2)
              · exfalso
                have : kv = (tid, MerkleTree.fresh tid now) := by simpa using h2
                exact h1.2 (by rw [this])

theorem forest_run_inv :
    ∀ (ops : List ForestOp) (f : MerkleForest),
      f.runOk ops = true → ForestInv f → ForestInv (f.run ops) := by
  intro ops
  induction ops with
  | nil => intro f _ hinv; exact hinv
  | cons op rest ih =>
      intro f hok hinv
      simp only [MerkleForest.runOk, Bool.and_eq_true] at hok
      exact ih (forestStep f op) hok.2 (forest_step_inv f op hok.1 hinv)

theorem forest_roots_keys_aux :
    ∀ (l : List (String × MerkleTree)),
      (∀ kv ∈ l, (kv.2.root).isSome = true) →
      ((l.filterMap fun kv =>
          (kv.2.get_root_hash).map (fun h => (kv.1, h))).map (·.1)
        = l.map (·.1)) := by
  intro l
  induction l with
  | nil => intro _; rfl
  | cons kv rest ih =>
      intro h
      have hr : (kv.2.root).isSome = true := h kv (List.mem_cons_self _ _)
      obtain ⟨r, hrr⟩ := Option.isSome_iff_exists.mp hr
      have hfa : (kv.2.get_root_hash).map (fun h => (kv.1, h))
          = some (kv.1, r.hash) := by
        simp [MerkleTree.get_root_hash, hrr]
      simp only [List.filterMap_cons, hfa, List.map_cons]
      rw [ih (fun q hq => h q (List.mem_cons_of_mem _ hq))]

theorem forest_roots_keys {f : MerkleForest}
    (h : ∀ kv ∈ f.trees, (kv.2.root).isSome = true) :
    f.get_forest_roots.map (·.1) = f.trees.map (·.1) := by
  unfold MerkleForest.get_forest_roots
  exact forest_roots_keys_aux f.trees h

/-- C8 counterexample: one `add_fossil_to_thread` call with a
non-serializable payload raises after inserting the new empty tree, so
the forest is left holding a branch `t` whose tree has no leaves and a
null root; `get_forest_roots` then omits the branch and
`get_root_hash_for_thread` returns nothing for it. -/
theorem forest_empty_tree_counterexample :
    (((MerkleForest.empty ⟨86400, 128⟩).run
        [.add "t" "l" [("x", PyVal.obj 0)] 0]).trees.map (·.1) = ["t"]) ∧
    (((MerkleForest.empty ⟨86400, 128⟩).run
        [.add "t" "l" [("x", PyVal.obj 0)] 0]).get_root_hash_for_thread "t"
      = none) ∧
    (((MerkleForest.empty ⟨86400, 128⟩).run
        [.add "t" "l" [("x", PyVal.obj 0)] 0]).get_forest_roots = []) := by
  exact ⟨by decide, by decide, by decide⟩

/-- C8 amended: under any sequence of public operations in which every
`add_fossil_to_thread` completes without raising, every tree in the
forest has a non-empty leaf sequence and a non-null root; consequently
`get_forest_roots` has an entry per branch and
`get_root_hash_for_thread` returns a hash for every present branch. -/
theorem forest_no_empty_trees_amended (cfg : ForestConfig)
    (ops : List ForestOp) (hok : (MerkleForest.empty cfg).runOk ops = true) :
    (∀ kv ∈ ((MerkleForest.empty cfg).run ops).trees,
      kv.2.leaves ≠ [] ∧ (kv.2.root).isSome = true) ∧
    (((MerkleForest.empty cfg).run ops).get_forest_roots.map (·.1) =
      ((MerkleForest.empty cfg).run ops).trees.map (·.1)) ∧
    (∀ kv ∈ ((MerkleForest.empty cfg).run ops).trees,
      (((MerkleForest.empty cfg).run ops).get_root_hash_for_thread
        kv.1).isSome = true) := by
  have hinv : ForestInv ((MerkleForest.empty cfg).run ops) :=
    forest_run_inv ops (MerkleForest.empty cfg) hok
      ⟨by simp [MerkleForest.empty], by simp [MerkleForest.empty]⟩
  refine ⟨hinv.2, forest_roots_keys (fun kv hkv => (hinv.2 kv hkv).2), ?_⟩
  intro kv hkv
  have hlk : ((MerkleForest.empty cfg).run ops).trees.lookup kv.1
      = some kv.2 := lookup_of_mem_nodup hinv.1 (by
        obtain ⟨a, b⟩ := kv; exact hkv)
  unfold MerkleForest.get_root_hash_for_thread
  rw [hlk]
  unfold MerkleTree.get_root_hash
  obtain ⟨r, hr⟩ := Option.isSome_iff_exists.mp (hinv.2 kv hkv).2
  simp [hr]

/-- Witness for C8 on a concrete succeeding operation sequence. -/
theorem forest_no_empty_trees_amended_witness :
    ((MerkleForest.empty ⟨86400, 128⟩).runOk
      [.add "t" "l" [("digest", PyVal.str "aa")] 0, .prune "q"] = true) ∧
    ((∀ kv ∈ ((MerkleForest.empty ⟨86400, 128⟩).run
        [.add "t" "l" [("digest", PyVal.str "aa")] 0, .prune "q"]).trees,
      kv.2.leaves ≠ [] ∧ (kv.2.root).isSome = true) ∧
    (((MerkleForest.empty ⟨86400, 128⟩).run
        [.add "t" "l" [("digest", PyVal.str "aa")] 0,
         .prune "q"]).get_forest_roots.map (·.1) =
      ((MerkleForest.empty ⟨86400, 128⟩).run
        [.add "t" "l" [("digest", PyVal.str "aa")] 0,
         .prune "q"]).trees.map (·.1)) ∧
    (∀ kv ∈ ((MerkleForest.empty ⟨86400, 128⟩).run
        [.add "t" "l" [("digest", PyVal.str "aa")] 0, .prune "q"]).trees,
      (((MerkleForest.empty ⟨86400, 128⟩).run
        [.add "t" "l" [("digest", PyVal.str "aa")] 0,
         .prune "q"]).get_root_hash_for_thread kv.1).isSome = true)) :=
  ⟨by decide, forest_no_empty_trees_amended ⟨86400, 128⟩ _ (by decide)⟩

/-! ## C1: Merkle round-trip -/

@[simp] theorem MerkleNode.hash_mk (h : String) (l r : Option MerkleNode)
    (il : Bool) (lid : Option String) :
    (MerkleNode.mk h l r il lid).hash = h := rfl

@[simp] theorem MerkleNode.is_leaf_mk (h : String) (l r : Option MerkleNode)
    (il : Bool) (lid : Option String) :
    (MerkleNode.mk h l r il lid).is_leaf = il := rfl

@[simp] theorem MerkleNode.leaf_id_mk (h : String) (l r : Option MerkleNode)
    (il : Bool) (lid : Option String) :
    (MerkleNode.mk h l r il lid).leaf_id = lid := rfl

/-- Well-hashed trees as produced by `_build_tree`: leaves carry no
children, and every internal node's hash is the SHA-256 of its
children's concatenated hex hashes. -/
inductive WfNode : MerkleNode → Prop where
  | leaf : ∀ (h : String) (lid : Option String),
      WfNode (.mk h none none true lid)
  | node : ∀ (l r : MerkleNode) (lid : Option String),
      WfNode l → WfNode r →
      WfNode (.mk (sha256_hex_str (l.hash ++ r.hash)) (some l) (some r)
        false lid)

/-- `lf` occurs as a node inside the tree rooted at the second
argument. -/
inductive LeafIn (lf : MerkleNode) : MerkleNode → Prop where
  | here : LeafIn lf lf
  | left : ∀ (h : String) (l r : MerkleNode) (il : Bool)
      (lid : Option String), LeafIn lf l →
      LeafIn lf (.mk h (some l) (some r) il lid)
  | right : ∀ (h : String) (l r : MerkleNode) (il : Bool)
      (lid : Option String), LeafIn lf r →
      LeafIn lf (.mk h (some l) (some r) il lid)

theorem LeafIn.trans {a b c : MerkleNode} (h1 : LeafIn a b)
    (h2 : LeafIn b c) : LeafIn a c := by
  induction h2 with
  | here => exact h1
  | left h l r il lid _ ih => exact .left h l r il lid ih
  | right h l r il lid _ ih => exact .right h l r il lid ih

theorem LeafIn_of_childless {lf : MerkleNode} {h : String} {il : Bool}
    {lid : Option String} (hin : LeafIn lf (.mk h none none il lid)) :
    lf = .mk h none none il lid := by
  cases hin
  rfl

theorem pairUp_wf :
    ∀ (L : List MerkleNode), (∀ n ∈ L, WfNode n) →
      ∀ m ∈ pairUp L, WfNode m := by
  intro L
  induction L using pairUp.induct with
  | case1 => intro _ m hm; simp [pairUp] at hm
  | case2 x =>
      intro hL m hm
      simp only [pairUp, List.mem_singleton] at hm
      subst hm
      exact WfNode.node x x none (hL x (by simp)) (hL x (by simp))
  | case3 x y rest ih =>
      intro hL m hm
      simp only [pairUp, List.mem_cons] at hm
      rcases hm with hm | hm
      · subst hm
        exact WfNode.node x y none (hL x (by simp)) (hL y (by simp))
      · exact ih (fun n hn => hL n (by simp [hn])) m hm

theorem pairUp_leafIn_down :
    ∀ (L : List MerkleNode) (m : MerkleNode), m ∈ pairUp L →
      ∀ lf, lf.is_leaf = true → LeafIn lf m → ∃ n ∈ L, LeafIn lf n := by
  intro L
  induction L using pairUp.induct with
  | case1 => intro m hm; simp [pairUp] at hm
  | case2 x =>
      intro m hm lf hleaf hin
      simp only [pairUp, List.mem_singleton] at hm
      subst hm
      cases hin with
      | here => simp [mkParent] at hleaf
      | left h l r il lid h1 => exact ⟨x, by simp, h1⟩
      | right h l r il lid h1 => exact ⟨x, by simp, h1⟩
  | case3 x y rest ih =>
      intro m hm lf hleaf hin
      simp only [pairUp, List.mem_cons] at hm
      rcases hm with hm | hm
      · subst hm
        cases hin with
        | here => simp [mkParent] at hleaf
        | left h l r il lid h1 => exact ⟨x, by simp, h1⟩
        | right h l r il lid h1 => exact ⟨y, by simp, h1⟩
      · obtain ⟨n, hn, hnin⟩ := ih m hm lf hleaf hin
        exact ⟨n, by simp [hn], hnin⟩

theorem pairUp_leafIn_up :
    ∀ (L : List MerkleNode) (n : MerkleNode), n ∈ L →
      ∃ m ∈ pairUp L, LeafIn n m := by
  intro L
  induction L using pairUp.induct with
  | case1 => intro n hn; simp at hn
  | case2 x =>
      intro n hn
      simp only [List.mem_singleton] at hn
      subst hn
      refine ⟨mkParent n n, by simp [pairUp], ?_⟩
      exact .left _ _ _ _ _ .here
  | case3 x y rest ih =>
      intro n hn
      rcases List.mem_cons.mp hn with hn | hn
      · subst hn
        exact ⟨mkParent n y, by simp [pairUp], .left _ _ _ _ _ .here⟩
      · rcases List.mem_cons.mp hn with hn | hn
        · subst hn
          exact ⟨mkParent x n, by simp [pairUp], .right _ _ _ _ _ .here⟩
        · obtain ⟨m, hm, hmin⟩ := ih n hn
          exact ⟨m, by simp [pairUp, hm], hmin⟩

theorem buildRoot_wf :
    ∀ (L : List MerkleNode), (∀ n ∈ L, WfNode n) →
      ∀ root, buildRoot L = some root → WfNode root := by
  intro L
  induction L using buildRoot.induct with
  | case1 => intro _ root h; simp [buildRoot] at h
  | case2 x =>
      intro hL root h
      have hx : x = root := by simpa [buildRoot] using h
      subst hx
      exact hL _ (by simp)
  | case3 x y rest ih =>
      intro hL root h
      rw [buildRoot] at h
      exact ih (pairUp_wf _ hL) root h

theorem buildRoot_leafIn_down :
    ∀ (L : List MerkleNode) (root : MerkleNode), buildRoot L = some root →
      ∀ lf, lf.is_leaf = true → LeafIn lf root → ∃ n ∈ L, LeafIn lf n := by
  intro L
  induction L using buildRoot.induct with
  | case1 => intro root h; simp [buildRoot] at h
  | case2 x =>
      intro root h lf hleaf hin
      have hx : x = root := by simpa [buildRoot] using h
      subst hx
      exact ⟨x, by simp, hin⟩
  | case3 x y rest ih =>
      intro root h lf hleaf hin
      rw [buildRoot] at h
      obtain ⟨m, hm, hmin⟩ := ih root h lf hleaf hin
      exact pairUp_leafIn_down _ m hm lf hleaf hmin

theorem buildRoot_leafIn_up :
    ∀ (L : List MerkleNode) (root : MerkleNode), buildRoot L = some root →
      ∀ n ∈ L, LeafIn n root := by
  intro L
  induction L using buildRoot.induct with
  | case1 => intro root h; simp [buildRoot] at h
  | case2 x =>
      intro root h n hn
      have hx : x = root := by simpa [buildRoot] using h
      subst hx
      simp only [List.mem_singleton] at hn
      subst hn
      exact .here
  | case3 x y rest ih =>
      intro root h n hn
      rw [buildRoot] at h
      obtain ⟨m, hm, hmin⟩ := pairUp_leafIn_up _ n hn
      exact hmin.trans (ih root h m hm)

theorem dfs_complete :
    ∀ (n : MerkleNode), WfNode n → ∀ (t : String) (lf : MerkleNode),
      lf.is_leaf = true → lf.leaf_id = some t → LeafIn lf n →
      (dfsProof n t).isSome = true := by
  intro n hwf
  induction hwf with
  | leaf h lid =>
      intro t lf hleaf hid hin
      have := LeafIn_of_childless hin
      subst this
      simp only [MerkleNode.leaf_id_mk] at hid
      simp [dfsProof, hid]
  | node l r lid hl hr ihl ihr =>
      intro t lf hleaf hid hin
      cases hin with
      | here => simp at hleaf
      | left h2 l2 r2 il2 lid2 h1 =>
          have hsl := ihl t lf hleaf hid h1
          simp only [dfsProof, MerkleNode.is_leaf_mk, Bool.false_and,
            Bool.false_eq_true, if_false]
          cases hdl : dfsProof l t with
          | none => rw [hdl] at hsl; simp at hsl
          | some acc => simp
      | right h2 l2 r2 il2 lid2 h1 =>
          have hsr := ihr t lf hleaf hid h1
          simp only [dfsProof, MerkleNode.is_leaf_mk, Bool.false_and,
            Bool.false_eq_true, if_false]
          cases hdl : dfsProof l t with
          | none =>
              cases hdr : dfsProof r t with
              | none => rw [hdr] at hsr; simp at hsr
              | some acc => simp
          | some acc => simp

theorem dfs_sound :
    ∀ (n : MerkleNode), WfNode n → ∀ (t : String)
      (p : List (String × String)), dfsProof n t = some p →
      ∃ lf, LeafIn lf n ∧ lf.is_leaf = true ∧ lf.leaf_id = some t ∧
        p.foldl verifyStep lf.hash = n.hash := by
  intro n hwf
  induction hwf with
  | leaf h lid =>
      intro t p hp
      by_cases hid : lid == some t
      · simp only [dfsProof, MerkleNode.is_leaf_mk, MerkleNode.leaf_id_mk,
          hid, Bool.true_and, if_true, Option.some.injEq] at hp
        subst hp
        exact ⟨.mk h none none true lid, .here, rfl,
          by simpa using hid, rfl⟩
      · simp only [dfsProof, MerkleNode.is_leaf_mk, MerkleNode.leaf_id_mk,
          hid, Bool.true_and, Bool.false_eq_true, if_false] at hp
        exact absurd hp (by simp)
  | node l r lid hl hr ihl ihr =>
      intro t p hp
      simp only [dfsProof, MerkleNode.is_leaf_mk, Bool.false_and,
        Bool.false_eq_true, if_false] at hp
      cases hdl : dfsProof l t with
      | some acc =>
          rw [hdl] at hp
          simp only [Option.some.injEq] at hp
          subst hp
          obtain ⟨lf, hin, hleaf, hid, hfold⟩ := ihl t acc hdl
          refine ⟨lf, .left _ _ _ _ _ hin, hleaf, hid, ?_⟩
          rw [List.foldl_append, hfold]
          simp [verifyStep]
      | none =>
          rw [hdl] at hp
          cases hdr : dfsProof r t with
          | none => rw [hdr] at hp; exact absurd hp (by simp)
          | some acc =>
              rw [hdr] at hp
              simp only [Option.some.injEq] at hp
              subst hp
              obtain ⟨lf, hin, hleaf, hid, hfold⟩ := ihr t acc hdr
              refine ⟨lf, .right _ _ _ _ _ hin, hleaf, hid, ?_⟩
              rw [List.foldl_append, hfold]
              simp [verifyStep]

/-- Does `canonical_leaf_hash` yield a string hash for this payload
(i.e. does `add_leaf` complete without raising)? -/
def leafHashOk (p : Payload) : Bool :=
  match canonical_leaf_hash p with
  | some (.str _) => true
  | _ => false

/-- The string leaf hash of a payload (meaningful when `leafHashOk`). -/
def leafHashStr (p : Payload) : String :=
  match canonical_leaf_hash p with
  | some (.str s) => s
  | _ => ""

theorem leafHashOk_spec {p : Payload} (h : leafHashOk p = true) :
    canonical_leaf_hash p = some (.str (leafHashStr p)) := by
  unfold leafHashOk at h
  unfold leafHashStr
  cases hc : canonical_leaf_hash p with
  | none => rw [hc] at h; simp at h
  | some v =>
      rw [hc] at h
      cases v with
      | str s => rfl
      | null => simp at h
      | bool b => simp at h
      | int n => simp at h
      | list xs => simp at h
      | dict kvs => simp at h
      | obj o => simp at h

/-- Run a sequence of `add_leaf` calls `(leaf_id, payload, now)`;
a raising call leaves the tree unchanged, as in the source. -/
def MerkleTree.addAll (t : MerkleTree) :
    List (String × Payload × Int) → MerkleTree
  | [] => t
  | (lid, p, now) :: rest =>
      MerkleTree.addAll ((t.add_leaf lid p now).getD t) rest

/-- The leaf node `add_leaf` appends for an input triple. -/
def inputLeaf (x : String × Payload × Int) : MerkleNode :=
  leafNode (leafHashStr x.2.1) x.1

theorem add_leaf_ok (t : MerkleTree) (lid : String) (p : Payload)
    (now : Int) (h : leafHashOk p = true) :
    t.add_leaf lid p now =
      some { t with leaves := t.leaves ++ [inputLeaf (lid, p, now)],
                    last_updated_utc := now,
                    root := buildRoot (t.leaves ++ [inputLeaf (lid, p, now)]) } := by
  unfold MerkleTree.add_leaf
  rw [leafHashOk_spec h]
  rfl

theorem addAll_spec :
    ∀ (inputs : List (String × Payload × Int)) (t : MerkleTree),
      (∀ x ∈ inputs, leafHashOk x.2.1 = true) →
      (t.addAll inputs).leaves = t.leaves ++ inputs.map inputLeaf ∧
      (inputs ≠ [] →
        (t.addAll inputs).root = buildRoot (t.leaves ++ inputs.map inputLeaf)) := by
  intro inputs
  induction inputs with
  | nil =>
      intro t _
      exact ⟨by simp [MerkleTree.addAll], fun h => absurd rfl h⟩
  | cons x rest ih =>
      intro t hok
      obtain ⟨lid, p, now⟩ := x
      have hx : leafHashOk p = true := hok (lid, p, now) (by simp)
      have hstep := add_leaf_ok t lid p now hx
      have ht2 : ((t.add_leaf lid p now).getD t) =
          { t with leaves := t.leaves ++ [inputLeaf (lid, p, now)],
                   last_updated_utc := now,
                   root := buildRoot (t.leaves ++ [inputLeaf (lid, p, now)]) } := by
        rw [hstep]; rfl
      constructor
      · have hrest := (ih ((t.add_leaf lid p now).getD t)
          (fun y hy => hok y (List.mem_cons_of_mem _ hy))).1
        show (MerkleTree.addAll _ rest).leaves = _
        rw [hrest, ht2]
        simp
      · intro _
        cases rest with
        | nil =>
            show (MerkleTree.addAll _ []).root = _
            rw [ht2]
            simp [MerkleTree.addAll]
        | cons y ys =>
            have h2 := (ih ((t.add_leaf lid p now).getD t)
              (fun q hq => hok q (List.mem_cons_of_mem _ hq))).2 (by simp)
            show (MerkleTree.addAll _ (y :: ys)).root = _
            rw [h2, ht2]
            simp

theorem nodup_fst_eq {α : Type} {l : List (String × α)}
    (hnd : (l.map (·.1)).Nodup) {x y : String × α}
    (hx : x ∈ l) (hy : y ∈ l) (hk : x.1 = y.1) : x = y := by
  induction l with
  | nil => simp at hx
  | cons p ps ih =>
      simp only [List.map_cons, List.nodup_cons] at hnd
      rcases List.mem_cons.mp hx with h1 | h1 <;>
        rcases List.mem_cons.mp hy with h2 | h2
      · rw [h1, h2]
      · exfalso
        apply hnd.1
        rw [← h1, hk]
        exact List.mem_map.mpr ⟨y, h2, rfl⟩
      · exfalso
        apply hnd.1
        rw [← h2, ← hk]
        exact List.mem_map.mpr ⟨x, h1, rfl⟩
      · exact ih hnd.2 h1 h2

/-- C1: Merkle round-trip.  For any non-empty sequence of leaves (with
the per-tree-unique leaf ids of the data model, and payloads whose leaf
hash computes to a string), every leaf's inclusion proof verifies
against the root under the leaf's own canonical hash. -/
theorem merkle_round_trip (tid : String) (t0 : Int)
    (inputs : List (String × Payload × Int))
    (hne : inputs ≠ [])
    (hok : ∀ x ∈ inputs, leafHashOk x.2.1 = true)
    (hnd : (inputs.map (·.1)).Nodup) :
    ∀ x ∈ inputs, ∃ (pr : List (String × String)) (rth : String),
      canonical_leaf_hash x.2.1 = some (.str (leafHashStr x.2.1)) ∧
      ((MerkleTree.fresh tid t0).addAll inputs).get_root_hash = some rth ∧
      ((MerkleTree.fresh tid t0).addAll inputs).inclusion_proof x.1 = some pr ∧
      verify_inclusion (leafHashStr x.2.1) rth pr = true := by
  intro x hx
  have hspec := addAll_spec inputs (MerkleTree.fresh tid t0) hok
  have hleaves : ((MerkleTree.fresh tid t0).addAll inputs).leaves =
      inputs.map inputLeaf := by
    rw [hspec.1]; rfl
  have hLne : inputs.map inputLeaf ≠ [] := by
    intro hc
    exact hne (List.map_eq_nil_iff.mp hc)
  have hroot : ((MerkleTree.fresh tid t0).addAll inputs).root =
      buildRoot (inputs.map inputLeaf) := by
    rw [hspec.2 hne]; rfl
  obtain ⟨rt, hrt⟩ := Option.isSome_iff_exists.mp
    (buildRoot_isSome (inputs.map inputLeaf) hLne)
  have hwfL : ∀ n ∈ inputs.map inputLeaf, WfNode n := by
    intro n hn
    rcases List.mem_map.mp hn with ⟨y, _, hyn⟩
    rw [← hyn]
    exact WfNode.leaf _ _
  have hwfrt : WfNode rt := buildRoot_wf _ hwfL rt hrt
  have hmemL : inputLeaf x ∈ inputs.map inputLeaf :=
    List.mem_map.mpr ⟨x, hx, rfl⟩
  have hinrt : LeafIn (inputLeaf x) rt := buildRoot_leafIn_up _ rt hrt _ hmemL
  have hsome := dfs_complete rt hwfrt x.1 (inputLeaf x) rfl rfl hinrt
  obtain ⟨pr, hpr⟩ := Option.isSome_iff_exists.mp hsome
  obtain ⟨lf, hlin, hleaf, hlid, hfold⟩ := dfs_sound rt hwfrt x.1 pr hpr
  obtain ⟨n, hnL, hlfn⟩ := buildRoot_leafIn_down _ rt hrt lf hleaf hlin
  rcases List.mem_map.mp hnL with ⟨y, hyin, hyn⟩
  have hlf_eq : lf = n := by
    rw [← hyn] at hlfn ⊢
    exact LeafIn_of_childless hlfn
  have hykey : y.1 = x.1 := by
    have : lf.leaf_id = some y.1 := by
      rw [hlf_eq, ← hyn]; rfl
    rw [this] at hlid
    exact Option.some.inj hlid
  have hyx : y = x := nodup_fst_eq hnd hyin hx hykey
  have hlf_hash : lf.hash = leafHashStr x.2.1 := by
    rw [hlf_eq, ← hyn, hyx]; rfl
  refine ⟨pr, rt.hash, leafHashOk_spec (hok x hx), ?_, ?_, ?_⟩
  · unfold MerkleTree.get_root_hash
    rw [hroot, hrt]
    rfl
  · unfold MerkleTree.inclusion_proof
    rw [hroot, hrt]
    exact hpr
  · unfold verify_inclusion
    rw [← hlf_hash, hfold]
    simp

/-- Concrete inputs for the C1 witness. -/
def wInputs1 : List (String × Payload × Int) :=
  [("l1", [("digest", PyVal.str "aa")], 0),
   ("l2", [("digest", PyVal.str "bb")], 0),
   ("l3", [("digest", PyVal.str "cc")], 0)]

/-- Witness for C1 on three concrete leaves. -/
theorem merkle_round_trip_witness :
    wInputs1 ≠ [] ∧
    (∀ x ∈ wInputs1, leafHashOk x.2.1 = true) ∧
    (wInputs1.map (·.1)).Nodup ∧
    (∀ x ∈ wInputs1, ∃ (pr : List (String × String)) (rth : String),
      canonical_leaf_hash x.2.1 = some (.str (leafHashStr x.2.1)) ∧
      ((MerkleTree.fresh "t" 0).addAll wInputs1).get_root_hash = some rth ∧
      ((MerkleTree.fresh "t" 0).addAll wInputs1).inclusion_proof x.1
        = some pr ∧
      verify_inclusion (leafHashStr x.2.1) rth pr = true) :=
  ⟨List.cons_ne_nil _ _, by decide, by decide,
   merkle_round_trip "t" 0 wInputs1 (List.cons_ne_nil _ _) (by decide)
     (by decide)⟩

end TheQube
